import Mathlib

/-!
Verification of the hyperglass UI state container and path view
(src/hyperglass/ui/hooks/useLGState.ts and
src/hyperglass/ui/components/path/path.tsx), shallowly embedded in Lean.

The state container is a single mutable record (hookstate `createState`);
we model it as an immutable structure `TLGState` with the accessor methods
of `MethodsInstance` as pure functions from state to values, and the
mutators (`resetForm`, simulated response writes) as functions from state
to state.
-/

namespace Hyperglass

/-- Modelled from the spec: `TDirective` (from `~/types`, not in the supplied
sources) is "a descriptor of an available query type"; only its `id` field is
read by the code under verification (`t.id.value === name`).  `label` stands
for the rest of the descriptor's payload so that two directives with the same
`id` can still differ. -/
structure TDirective where
  id : String
  label : String
deriving Repr, DecidableEq

/-- Modelled from the spec: `TQueryResponse` (not in the supplied sources) is
"the result of querying one device, including raw and structured output"; the
path view reads its `output` field. -/
structure TQueryResponse where
  output : String
deriving Repr, DecidableEq

/-- The `selections` subrecord, after the shape used by `createState` and
`resetForm` in useLGState.ts: mirrored form options for UI highlighting. -/
structure TSelections where
  queryLocation : List String
  queryType : Option String
  queryVrf : Option String
  queryGroup : Option String
deriving Repr, DecidableEq

/-- The global looking-glass state, after the initial value passed to
`createState<TLGState>` in useLGState.ts (lines 152-169).  JavaScript object
maps (`responses`) are modelled as association lists with unique keys
maintained by the write operation. -/
structure TLGState where
  selections : TSelections
  resolvedIsOpen : Bool
  isSubmitting : Bool
  availableGroups : List String
  availableTypes : List TDirective
  directive : Option TDirective
  displayTarget : String
  queryLocation : List String
  btnLoading : Bool
  queryTarget : String
  queryGroup : String
  queryType : String
  availVrfs : List String
  responses : List (String × TQueryResponse)
  families : List String
  queryVrf : String
deriving Repr, DecidableEq

/-- The initial state passed to `createState<TLGState>` (useLGState.ts lines
152-169). -/
def initialLGState : TLGState where
  selections := { queryLocation := [], queryType := none, queryVrf := none, queryGroup := none }
  resolvedIsOpen := false
  isSubmitting := false
  availableGroups := []
  availableTypes := []
  directive := none
  displayTarget := ""
  queryLocation := []
  btnLoading := false
  queryTarget := ""
  queryGroup := ""
  queryType := ""
  availVrfs := []
  responses := []
  families := []
  queryVrf := ""

/-- Modelled from the spec: `all` (imported from `~/util`, not in the supplied
sources) is the conjunction of its boolean arguments, per the spec's reading
of `formReady`: true iff every listed condition holds. -/
def all (conds : List Bool) : Bool :=
  conds.all (fun b => b)

namespace MethodsInstance

/-- `MethodsInstance.getResponse` (useLGState.ts lines 33-39): if `device` is
a key of `state.responses`, return the stored value, else return null. -/
def getResponse (state : TLGState) (device : String) : Option TQueryResponse :=
  if device ∈ state.responses.map Prod.fst then
    state.responses.lookup device
  else
    none

/-- `MethodsInstance.getDirective` (useLGState.ts lines 41-47): filter
`availableTypes` for entries whose `id` equals `name`; if the first element
of the filtered list exists, return it, else return null. -/
def getDirective (state : TLGState) (name : String) : Option TDirective :=
  match state.availableTypes.filter (fun t => t.id = name) with
  | directive :: _ => some directive
  | [] => none

/-- `MethodsInstance.formReady` (useLGState.ts lines 53-66): `isSubmitting`
conjoined with `all` of the four field-completeness checks (the `queryVrf`
check is commented out in the source). -/
def formReady (state : TLGState) : Bool :=
  state.isSubmitting &&
    all [
      state.queryType ≠ "",
      state.queryGroup ≠ "",
      state.queryTarget ≠ "",
      state.queryLocation.length ≠ 0
    ]

/-- `MethodsInstance.resetForm` (useLGState.ts lines 71-89): merge the listed
default values into the state.  `directive` is not in the merge list and is
left untouched. -/
def resetForm (state : TLGState) : TLGState :=
  { state with
    queryVrf := ""
    families := []
    queryType := ""
    queryGroup := ""
    responses := []
    queryTarget := ""
    queryLocation := []
    displayTarget := ""
    btnLoading := false
    isSubmitting := false
    resolvedIsOpen := false
    availVrfs := []
    availableGroups := []
    availableTypes := []
    selections := { queryLocation := [], queryType := none, queryVrf := none, queryGroup := none } }

end MethodsInstance

/-- A simulated write of a query response under key `device`, as performed by
the external submission pipeline (`responses[device] = value` on a JavaScript
object): replace the first binding of the key if present, else append. -/
def setResponse (state : TLGState) (device : String) (value : TQueryResponse) : TLGState :=
  { state with responses := setKey state.responses device value }
where
  setKey : List (String × TQueryResponse) → String → TQueryResponse → List (String × TQueryResponse)
    | [], d, v => [(d, v)]
    | (k, w) :: rest, d, v =>
        if k = d then (k, v) :: rest else (k, w) :: setKey rest d v

/-!
A model of JavaScript values and of `JSON.parse(JSON.stringify(obj))`, for
`MethodsInstance.stateExporter` (useLGState.ts lines 91-108).  `stateExporter`
is generic (`<O extends unknown>`), so it is modelled over arbitrary
JavaScript values, not over `TLGState`.  Objects and arrays live on an
explicit heap and are passed by reference, so that sharing, cycles and the
"same reference" relation are expressible; primitives are immediate.
-/

/-- An immediate JavaScript value: a primitive, or a reference to a heap
node. -/
inductive JSVal where
  | null
  | undef
  | bool (b : Bool)
  | num (n : Int)
  | str (s : String)
  | ref (a : Nat)
deriving Repr, DecidableEq

/-- A heap node: an array of values or an object with string-keyed fields. -/
inductive JSNode where
  | arr (elems : List JSVal)
  | obj (fields : List (String × JSVal))
deriving Repr, DecidableEq

/-- The heap: a finite map from addresses to nodes, as an association list. -/
abbrev JSHeap := List (Nat × JSNode)

/-- A parsed JSON document: the output of a successful `JSON.stringify`,
equivalently the plain-data tree a JavaScript value serializes to. -/
inductive Json where
  | null
  | bool (b : Bool)
  | num (n : Int)
  | str (s : String)
  | arr (elems : List Json)
  | obj (fields : List (String × Json))
deriving Repr

/-- Run a serializer over the elements of an array, as `JSON.stringify`
does: an element that serializes to undefined is emitted as JSON null, and a
thrown error propagates. -/
def exceptMapElems (f : JSVal → Except Unit (Option Json)) :
    List JSVal → Except Unit (List Json)
  | [] => Except.ok []
  | v :: vs =>
    match f v with
    | Except.error e => Except.error e
    | Except.ok j? =>
      match exceptMapElems f vs with
      | Except.error e => Except.error e
      | Except.ok rest => Except.ok ((j?.getD Json.null) :: rest)

/-- Run a serializer over the fields of an object, as `JSON.stringify` does:
a field whose value serializes to undefined is dropped, and a thrown error
propagates. -/
def exceptMapFields (f : JSVal → Except Unit (Option Json)) :
    List (String × JSVal) → Except Unit (List (String × Json))
  | [] => Except.ok []
  | kv :: kvs =>
    match f kv.2 with
    | Except.error e => Except.error e
    | Except.ok j? =>
      match exceptMapFields f kvs with
      | Except.error e => Except.error e
      | Except.ok rest =>
        match j? with
        | some j => Except.ok ((kv.1, j) :: rest)
        | none => Except.ok rest

/-- `JSON.stringify` on a value: primitives map to their JSON counterparts,
`undefined` serializes to "no output" (`Except.ok none`), and a reference is
chased through the heap, throwing (`Except.error`) on a circular structure,
exactly as `JSON.stringify` throws a TypeError on cycles.  `anc` is the chain
of strict ancestors of the current node; `fuel` bounds the recursion depth
and `h.length + 1` is always sufficient, because the ancestors are distinct
heap addresses. -/
def stringifyVal (h : JSHeap) : Nat → List Nat → JSVal → Except Unit (Option Json)
  | _, _, JSVal.undef => Except.ok none
  | _, _, JSVal.null => Except.ok (some Json.null)
  | _, _, JSVal.bool b => Except.ok (some (Json.bool b))
  | _, _, JSVal.num n => Except.ok (some (Json.num n))
  | _, _, JSVal.str s => Except.ok (some (Json.str s))
  | 0, _, JSVal.ref _ => Except.error ()
  | fuel + 1, anc, JSVal.ref a =>
    if a ∈ anc then Except.error ()
    else
      match List.lookup a h with
      | none => Except.error ()
      | some (JSNode.arr elems) =>
          Except.map (fun l => some (Json.arr l))
            (exceptMapElems (fun v => stringifyVal h fuel (a :: anc) v) elems)
      | some (JSNode.obj fields) =>
          Except.map (fun l => some (Json.obj l))
            (exceptMapFields (fun v => stringifyVal h fuel (a :: anc) v) fields)

/-- The composite `JSON.parse(JSON.stringify(v))` up to the point where a
document is available to parse: `some j` when `JSON.stringify` returns the
text of `j`, and `none` when the round trip throws — either because
`JSON.stringify` itself threw (circular structure), or because it produced
undefined and `JSON.parse(undefined)` throws a SyntaxError. -/
def serializeJS (h : JSHeap) (v : JSVal) : Option Json :=
  match stringifyVal h (h.length + 1) [] v with
  | Except.ok (some j) => some j
  | Except.ok none => none
  | Except.error _ => none

mutual

/-- `JSON.parse` of a document, materializing fresh heap nodes: returns the
root value, the newly allocated nodes, and the next free address.  Fresh
addresses start at `n`, so every node of the copy is a new reference. -/
def materialize : Json → Nat → JSVal × List (Nat × JSNode) × Nat
  | Json.null, n => (JSVal.null, [], n)
  | Json.bool b, n => (JSVal.bool b, [], n)
  | Json.num i, n => (JSVal.num i, [], n)
  | Json.str s, n => (JSVal.str s, [], n)
  | Json.arr elems, n =>
      let r := materializeElems elems n
      (JSVal.ref r.2.2, r.2.1 ++ [(r.2.2, JSNode.arr r.1)], r.2.2 + 1)
  | Json.obj fields, n =>
      let r := materializeFields fields n
      (JSVal.ref r.2.2, r.2.1 ++ [(r.2.2, JSNode.obj r.1)], r.2.2 + 1)

/-- Materialize the elements of a JSON array in order. -/
def materializeElems : List Json → Nat → List JSVal × List (Nat × JSNode) × Nat
  | [], n => ([], [], n)
  | j :: js, n =>
      let r1 := materialize j n
      let r2 := materializeElems js r1.2.2
      (r1.1 :: r2.1, r1.2.1 ++ r2.2.1, r2.2.2)

/-- Materialize the fields of a JSON object in order. -/
def materializeFields : List (String × Json) → Nat → List (String × JSVal) × List (Nat × JSNode) × Nat
  | [], n => ([], [], n)
  | kj :: kjs, n =>
      let r1 := materialize kj.2 n
      let r2 := materializeFields kjs r1.2.2
      ((kj.1, r1.1) :: r2.1, r1.2.1 ++ r2.2.1, r2.2.2)

end

/-- The addresses bound in a heap. -/
def heapKeys (h : JSHeap) : List Nat := h.map Prod.fst

/-- An upper bound on the addresses bound in a heap. -/
def maxAddr (h : JSHeap) : Nat := (heapKeys h).foldr max 0

/-- The first address strictly above every address bound in the heap; fresh
allocation starts here. -/
def freshBase (h : JSHeap) : Nat := maxAddr h + 1

namespace MethodsInstance

/-- `MethodsInstance.stateExporter` (useLGState.ts lines 91-108):
`result = null`; if `obj === null` return `result`; otherwise try
`result = JSON.parse(JSON.stringify(obj))`, catching any error (which is
logged, leaving `result` null); return `result`.  The parse allocates fresh
nodes, so the returned heap extends the input heap. -/
def stateExporter (h : JSHeap) (obj : JSVal) : JSVal × JSHeap :=
  if obj = JSVal.null then (JSVal.null, h)
  else
    match serializeJS h obj with
    | some j =>
        let r := materialize j (freshBase h)
        (r.1, h ++ r.2.1)
    | none => (JSVal.null, h)

end MethodsInstance

/-- Depth of a JSON document: the nesting level of arrays and objects. -/
def jsonDepth : Json → Nat
  | Json.null => 0
  | Json.bool _ => 0
  | Json.num _ => 0
  | Json.str _ => 0
  | Json.arr elems => jsonDepthElems elems + 1
  | Json.obj fields => jsonDepthFields fields + 1
where
  jsonDepthElems : List Json → Nat
    | [] => 0
    | j :: js => max (jsonDepth j) (jsonDepthElems js)
  jsonDepthFields : List (String × Json) → Nat
    | [] => 0
    | kj :: kjs => max (jsonDepth kj.2) (jsonDepthFields kjs)

/-- The body of the `Path` view's modal (path.tsx lines 18-41): either the
chart fed with `response.output`, or a skeleton placeholder. -/
inductive PathModalBody where
  | chart (data : String)
  | skeleton
deriving Repr, DecidableEq

/-- The `Path` component's modal-body rendering (path.tsx line 35):
`response !== null ? <Chart data={output} /> : <Skeleton ... />` where
`response = getResponse(device)` and `output = response?.output`. -/
def pathModalBody (state : TLGState) (device : String) : PathModalBody :=
  match MethodsInstance.getResponse state device with
  | some response => PathModalBody.chart response.output
  | none => PathModalBody.skeleton

/-- Bounds on the output of a materialization step that starts allocating at
address `n` and ends at `nxt`: allocation moves forward, every new node's
address lies in `[n, nxt)`, and the new addresses are strictly increasing
(hence distinct). -/
def MatNodesOk (n : Nat) (nodes : List (Nat × JSNode)) (nxt : Nat) : Prop :=
  n ≤ nxt ∧ (∀ p ∈ nodes, n ≤ p.1 ∧ p.1 < nxt) ∧
    List.Pairwise (fun a b => a < b) (nodes.map Prod.fst)

/-- Well-formedness of `materialize j n` for every starting address: its
nodes satisfy `MatNodesOk`, and when its root is a reference the referenced
address is freshly allocated. -/
def MatOk (j : Json) : Prop :=
  ∀ n, MatNodesOk n (materialize j n).2.1 (materialize j n).2.2 ∧
    (∀ m, (materialize j n).1 = JSVal.ref m → n ≤ m ∧ m < (materialize j n).2.2)

/-- The round-trip property of a document `j`: serializing the value
materialized from `j` — against any heap in which the fresh nodes can be
looked up, any ancestor chain lying entirely above the fresh addresses, and
any sufficient fuel — yields `j` back. -/
def RoundTripOk (j : Json) : Prop :=
  ∀ n (H : JSHeap) fuel anc,
    (∀ p ∈ (materialize j n).2.1, List.lookup p.1 H = some p.2) →
    (∀ b ∈ anc, (materialize j n).2.2 ≤ b) →
    jsonDepth j < fuel →
    stringifyVal H fuel anc (materialize j n).1 = Except.ok (some j)

/-!
Helper lemmas about association-list lookup, shared by the proofs below.
-/

theorem lookup_eq_some_of_mem_of_nodup {α β : Type} [BEq α] [LawfulBEq α]
    {l : List (α × β)} {a : α} {b : β}
    (nd : (l.map Prod.fst).Nodup) (hm : (a, b) ∈ l) : List.lookup a l = some b := by
  induction l with
  | nil => cases hm
  | cons p rest ih =>
    obtain ⟨k, w⟩ := p
    simp only [List.map_cons, List.nodup_cons] at nd
    rcases List.mem_cons.mp hm with h | h
    · injection h with h1 h2
      subst h1
      subst h2
      simp [List.lookup]
    · have hne : (a == k) = false := by
        refine beq_eq_false_iff_ne.mpr ?_
        intro hak
        exact nd.1 (List.mem_map.mpr ⟨(a, b), h, hak⟩)
      simp only [List.lookup, hne]
      exact ih nd.2 h

theorem lookup_append_of_not_mem {α β : Type} [BEq α] [LawfulBEq α]
    {l₁ l₂ : List (α × β)} {a : α}
    (ha : a ∉ l₁.map Prod.fst) : List.lookup a (l₁ ++ l₂) = List.lookup a l₂ := by
  induction l₁ with
  | nil => rfl
  | cons p rest ih =>
    obtain ⟨k, w⟩ := p
    simp only [List.map_cons, List.mem_cons, not_or] at ha
    have hne : (a == k) = false := beq_eq_false_iff_ne.mpr ha.1
    simp only [List.cons_append, List.lookup, hne]
    exact ih ha.2

theorem mem_keys_of_lookup {α β : Type} [BEq α] [LawfulBEq α]
    {l : List (α × β)} {a : α} {b : β}
    (h : List.lookup a l = some b) : a ∈ l.map Prod.fst := by
  induction l with
  | nil => cases h
  | cons p rest ih =>
    obtain ⟨k, w⟩ := p
    by_cases hak : a = k
    · simp [hak]
    · have hne : (a == k) = false := beq_eq_false_iff_ne.mpr hak
      simp only [List.lookup, hne] at h
      simp only [List.map_cons, List.mem_cons]
      exact Or.inr (ih h)

theorem le_foldr_max {l : List Nat} {a : Nat} (ha : a ∈ l) : a ≤ l.foldr max 0 := by
  induction l with
  | nil => cases ha
  | cons k rest ih =>
    rcases List.mem_cons.mp ha with rfl | hmem
    · exact le_max_left _ _
    · exact le_trans (ih hmem) (le_max_right _ _)

theorem le_maxAddr_of_mem {h : JSHeap} {a : Nat} (ha : a ∈ heapKeys h) :
    a ≤ maxAddr h :=
  le_foldr_max ha

/-- C1: `formReady()` returns true if and only if `isSubmitting` is true and
`queryType`, `queryGroup` and `queryTarget` are all non-empty strings and
`queryLocation` is a non-empty list; in every other combination of these
fields it returns false (the boolean equation covers all combinations). -/
theorem formReady_iff (s : TLGState) :
    MethodsInstance.formReady s = true ↔
      (s.isSubmitting = true ∧ s.queryType ≠ "" ∧ s.queryGroup ≠ "" ∧
        s.queryTarget ≠ "" ∧ s.queryLocation ≠ []) := by
  simp [MethodsInstance.formReady, all, List.length_eq_zero, and_assoc]

/-- C2: `getResponse(d)` returns null when `d` is not a key of the
`responses` mapping, and returns exactly the value stored under `d` when it
is a key (JavaScript object keys are unique, hence the no-duplicate-keys
hypothesis on the association list modelling the object); being a total Lean
function, it never throws, for any content of the mapping. -/
theorem getResponse_spec (s : TLGState) (d : String) :
    (d ∉ s.responses.map Prod.fst → MethodsInstance.getResponse s d = none) ∧
    ((s.responses.map Prod.fst).Nodup → ∀ v, (d, v) ∈ s.responses →
      MethodsInstance.getResponse s d = some v) := by
  constructor
  · intro hd
    simp [MethodsInstance.getResponse, hd]
  · intro nd v hv
    have hd : d ∈ s.responses.map Prod.fst := List.mem_map.mpr ⟨(d, v), hv, rfl⟩
    simp only [MethodsInstance.getResponse, if_pos hd]
    exact lookup_eq_some_of_mem_of_nodup nd hv

/-- Witness for C2 at concrete inputs: the initial state has no response for
"router1", and a state holding one binding for "router1" returns it. -/
theorem getResponse_spec_witness :
    MethodsInstance.getResponse initialLGState "router1" = none ∧
    MethodsInstance.getResponse
      { initialLGState with responses := [("router1", ⟨"out"⟩)] } "router1" =
      some ⟨"out"⟩ := by
  constructor
  · exact (getResponse_spec initialLGState "router1").1 (by decide)
  · exact (getResponse_spec _ "router1").2 (by decide) ⟨"out"⟩ (by decide)

/-- C4: `getDirective(name)` returns null when no entry of `availableTypes`
has identifier equal to `name`, and returns the first matching entry in
insertion order when one or more entries match. -/
theorem getDirective_spec (s : TLGState) (name : String) :
    ((∀ t ∈ s.availableTypes, t.id ≠ name) →
      MethodsInstance.getDirective s name = none) ∧
    (∀ l₁ d l₂, s.availableTypes = l₁ ++ d :: l₂ → d.id = name →
      (∀ t ∈ l₁, t.id ≠ name) → MethodsInstance.getDirective s name = some d) := by
  constructor
  · intro hno
    have hfil : s.availableTypes.filter (fun t => t.id = name) = [] := by
      rw [List.filter_eq_nil_iff]
      intro t ht
      simp [hno t ht]
    simp [MethodsInstance.getDirective, hfil]
  · intro l₁ d l₂ hsplit hd hno
    have hfil1 : l₁.filter (fun t => t.id = name) = [] := by
      rw [List.filter_eq_nil_iff]
      intro t ht
      simp [hno t ht]
    simp [MethodsInstance.getDirective, hsplit, List.filter_append, hfil1,
      List.filter_cons, hd]

/-- Witness for C4 at concrete inputs: with two entries sharing the id
"ping", lookup of "ping" returns the first one; lookup of an absent id
returns null. -/
theorem getDirective_spec_witness :
    MethodsInstance.getDirective
      { initialLGState with availableTypes := [⟨"ping", "first"⟩, ⟨"ping", "second"⟩] }
      "ping" = some ⟨"ping", "first"⟩ ∧
    MethodsInstance.getDirective
      { initialLGState with availableTypes := [⟨"ping", "first"⟩, ⟨"ping", "second"⟩] }
      "bgp_route" = none := by
  constructor
  · exact (getDirective_spec _ "ping").2 [] ⟨"ping", "first"⟩ [⟨"ping", "second"⟩]
      rfl rfl (by decide)
  · exact (getDirective_spec _ "bgp_route").1 (by decide)

/-- C5: `resetForm()` overwrites every listed form field with its default
value while leaving `directive` untouched: the state after `resetForm()` is
the initial default snapshot except that it keeps the prior `directive`. -/
theorem resetForm_frame (s : TLGState) :
    MethodsInstance.resetForm s = { initialLGState with directive := s.directive } :=
  rfl

/-- C6: for every prior state, `resetForm()` followed by `formReady()`
returns false. -/
theorem formReady_after_resetForm (s : TLGState) :
    MethodsInstance.formReady (MethodsInstance.resetForm s) = false :=
  rfl

/-- C7: in the initial state `getResponse` returns null for every device;
after a simulated write `responses[d] = v`, `getResponse(d)` returns exactly
`v`; and after `resetForm()` the `responses` mapping is cleared, so
`getResponse` returns null again for every device. -/
theorem responses_lifecycle :
    (∀ d, MethodsInstance.getResponse initialLGState d = none) ∧
    (∀ s d v, MethodsInstance.getResponse (setResponse s d v) d = some v) ∧
    (∀ s d, MethodsInstance.getResponse (MethodsInstance.resetForm s) d = none) := by
  refine ⟨fun d => rfl, fun s d v => ?_, fun s d => rfl⟩
  simp only [MethodsInstance.getResponse, setResponse]
  have hmem : ∀ (l : List (String × TQueryResponse)),
      d ∈ (setResponse.setKey l d v).map Prod.fst ∧
        List.lookup d (setResponse.setKey l d v) = some v := by
    intro l
    induction l with
    | nil => simp [setResponse.setKey, List.lookup]
    | cons p rest ih =>
      obtain ⟨k, w⟩ := p
      by_cases hk : k = d
      · subst hk
        simp [setResponse.setKey, List.lookup]
      · have hne : (d == k) = false := beq_eq_false_iff_ne.mpr (Ne.symm hk)
        simp only [setResponse.setKey, if_neg hk, List.map_cons, List.mem_cons,
          List.lookup, hne]
        exact ⟨Or.inr (ih).1, (ih).2⟩
  rw [if_pos (hmem s.responses).1]
  exact (hmem s.responses).2

/-- C8: the path view's modal body renders the chart exactly when
`getResponse(device)` returns a present response — and then feeds the chart
the response's `output` — and renders the loading skeleton exactly when the
response is not found. -/
theorem pathModalBody_spec (s : TLGState) (device : String) :
    ((∃ data, pathModalBody s device = PathModalBody.chart data) ↔
      (∃ r, MethodsInstance.getResponse s device = some r)) ∧
    (pathModalBody s device = PathModalBody.skeleton ↔
      MethodsInstance.getResponse s device = none) ∧
    (∀ r, MethodsInstance.getResponse s device = some r →
      pathModalBody s device = PathModalBody.chart r.output) := by
  rcases hres : MethodsInstance.getResponse s device with _ | r
  · refine ⟨?_, ?_, ?_⟩
    · simp [pathModalBody, hres]
    · simp [pathModalBody, hres]
    · intro r hr
      cases hr
  · refine ⟨?_, ?_, ?_⟩
    · simp [pathModalBody, hres]
    · simp [pathModalBody, hres]
    · intro r' hr'
      injection hr' with h
      subst h
      simp [pathModalBody, hres]

/-- Witness for C8 at concrete inputs: with a stored response the body is
the chart over its output; in the initial state it is the skeleton. -/
theorem pathModalBody_spec_witness :
    pathModalBody { initialLGState with responses := [("router1", ⟨"out"⟩)] }
      "router1" = PathModalBody.chart "out" ∧
    pathModalBody initialLGState "router1" = PathModalBody.skeleton := by
  constructor
  · exact (pathModalBody_spec _ "router1").2.2 ⟨"out"⟩ (by decide)
  · exact (pathModalBody_spec initialLGState "router1").2.1.mpr (by decide)

/-- C9: `formReady()` does not depend on `queryVrf`: two states that differ
only in the value of `queryVrf` yield the same result. -/
theorem formReady_ignores_queryVrf (s : TLGState) (v1 v2 : String) :
    MethodsInstance.formReady { s with queryVrf := v1 } =
      MethodsInstance.formReady { s with queryVrf := v2 } :=
  rfl

theorem matNodesOk_append {n m m' : Nat} {N1 N2 : List (Nat × JSNode)}
    (h1 : MatNodesOk n N1 m) (h2 : MatNodesOk m N2 m') :
    MatNodesOk n (N1 ++ N2) m' := by
  obtain ⟨hle1, hb1, hp1⟩ := h1
  obtain ⟨hle2, hb2, hp2⟩ := h2
  refine ⟨le_trans hle1 hle2, ?_, ?_⟩
  · intro p hp
    rcases List.mem_append.mp hp with hmem | hmem
    · exact ⟨(hb1 p hmem).1, lt_of_lt_of_le (hb1 p hmem).2 hle2⟩
    · exact ⟨le_trans hle1 (hb2 p hmem).1, (hb2 p hmem).2⟩
  · rw [List.map_append, List.pairwise_append]
    refine ⟨hp1, hp2, ?_⟩
    intro a ha b hb
    obtain ⟨p, hpm, rfl⟩ := List.mem_map.mp ha
    obtain ⟨q, hqm, rfl⟩ := List.mem_map.mp hb
    exact lt_of_lt_of_le (hb1 p hpm).2 (hb2 q hqm).1

theorem matNodesOk_nil (n : Nat) : MatNodesOk n [] n := by
  refine ⟨le_refl n, ?_, List.Pairwise.nil⟩
  intro p hp
  cases hp

theorem materializeElems_bounds (elems : List Json)
    (IH : ∀ j ∈ elems, MatOk j) :
    ∀ n, MatNodesOk n (materializeElems elems n).2.1 (materializeElems elems n).2.2 := by
  induction elems with
  | nil =>
    intro n
    rw [materializeElems]
    exact matNodesOk_nil n
  | cons j js ih =>
    intro n
    rw [materializeElems]
    exact matNodesOk_append ((IH j (by simp)) n).1
      (ih (fun j' hj' => IH j' (by simp [hj'])) (materialize j n).2.2)

theorem materializeFields_bounds (kjs : List (String × Json))
    (IH : ∀ kj ∈ kjs, MatOk kj.2) :
    ∀ n, MatNodesOk n (materializeFields kjs n).2.1 (materializeFields kjs n).2.2 := by
  induction kjs with
  | nil =>
    intro n
    rw [materializeFields]
    exact matNodesOk_nil n
  | cons kj kjs' ih =>
    intro n
    rw [materializeFields]
    exact matNodesOk_append ((IH kj (by simp)) n).1
      (ih (fun kj' hkj' => IH kj' (by simp [hkj'])) (materialize kj.2 n).2.2)

theorem materialize_bounds (j : Json) : MatOk j := by
  cases j with
  | null =>
    intro n
    rw [materialize]
    exact ⟨matNodesOk_nil n, fun m hm => by cases hm⟩
  | bool b =>
    intro n
    rw [materialize]
    exact ⟨matNodesOk_nil n, fun m hm => by cases hm⟩
  | num i =>
    intro n
    rw [materialize]
    exact ⟨matNodesOk_nil n, fun m hm => by cases hm⟩
  | str s =>
    intro n
    rw [materialize]
    exact ⟨matNodesOk_nil n, fun m hm => by cases hm⟩
  | arr elems =>
    have IH : ∀ j' ∈ elems, MatOk j' := fun j' _ => materialize_bounds j'
    intro n
    rw [materialize]
    have hb := materializeElems_bounds elems IH n
    refine ⟨?_, ?_⟩
    · refine matNodesOk_append hb ⟨Nat.le_succ _, ?_, ?_⟩
      · intro p hp
        rcases List.mem_cons.mp hp with rfl | hmem
        · exact ⟨le_refl _, Nat.lt_succ_self _⟩
        · cases hmem
      · simp
    · intro m hm
      injection hm with hm'
      subst hm'
      exact ⟨hb.1, Nat.lt_succ_self _⟩
  | obj fields =>
    have IH : ∀ kj ∈ fields, MatOk kj.2 := fun kj _ => materialize_bounds kj.2
    intro n
    rw [materialize]
    have hb := materializeFields_bounds fields IH n
    refine ⟨?_, ?_⟩
    · refine matNodesOk_append hb ⟨Nat.le_succ _, ?_, ?_⟩
      · intro p hp
        rcases List.mem_cons.mp hp with rfl | hmem
        · exact ⟨le_refl _, Nat.lt_succ_self _⟩
        · cases hmem
      · simp
    · intro m hm
      injection hm with hm'
      subst hm'
      exact ⟨hb.1, Nat.lt_succ_self _⟩
termination_by sizeOf j
decreasing_by
  all_goals simp_wf
  · have := List.sizeOf_lt_of_mem (by assumption : j' ∈ elems)
    omega
  · have := List.sizeOf_lt_of_mem (by assumption : kj ∈ fields)
    cases kj
    simp at this ⊢
    omega

theorem materializeElems_depth (elems : List Json)
    (IH : ∀ j ∈ elems, ∀ n, jsonDepth j ≤ (materialize j n).2.1.length) :
    ∀ n, jsonDepth.jsonDepthElems elems ≤ (materializeElems elems n).2.1.length := by
  induction elems with
  | nil =>
    intro n
    rw [materializeElems]
    simp [jsonDepth.jsonDepthElems]
  | cons j js ih =>
    intro n
    rw [materializeElems]
    simp only [jsonDepth.jsonDepthElems, List.length_append]
    exact max_le
      (le_trans (IH j (by simp) n) (Nat.le_add_right _ _))
      (le_trans (ih (fun j' hj' => IH j' (by simp [hj'])) (materialize j n).2.2)
        (Nat.le_add_left _ _))

theorem materializeFields_depth (kjs : List (String × Json))
    (IH : ∀ kj ∈ kjs, ∀ n, jsonDepth kj.2 ≤ (materialize kj.2 n).2.1.length) :
    ∀ n, jsonDepth.jsonDepthFields kjs ≤ (materializeFields kjs n).2.1.length := by
  induction kjs with
  | nil =>
    intro n
    rw [materializeFields]
    simp [jsonDepth.jsonDepthFields]
  | cons kj kjs' ih =>
    intro n
    rw [materializeFields]
    simp only [jsonDepth.jsonDepthFields, List.length_append]
    exact max_le
      (le_trans (IH kj (by simp) n) (Nat.le_add_right _ _))
      (le_trans (ih (fun kj' hkj' => IH kj' (by simp [hkj'])) (materialize kj.2 n).2.2)
        (Nat.le_add_left _ _))

theorem materializeElems_nil_eq (n : Nat) : materializeElems [] n = ([], [], n) := by
  rw [materializeElems]

theorem materializeElems_cons_eq (j : Json) (js : List Json) (n : Nat) :
    materializeElems (j :: js) n =
      ((materialize j n).1 :: (materializeElems js (materialize j n).2.2).1,
       (materialize j n).2.1 ++ (materializeElems js (materialize j n).2.2).2.1,
       (materializeElems js (materialize j n).2.2).2.2) := by
  rw [materializeElems]

theorem materializeFields_nil_eq (n : Nat) : materializeFields [] n = ([], [], n) := by
  rw [materializeFields]

theorem materializeFields_cons_eq (kj : String × Json) (kjs : List (String × Json)) (n : Nat) :
    materializeFields (kj :: kjs) n =
      ((kj.1, (materialize kj.2 n).1) :: (materializeFields kjs (materialize kj.2 n).2.2).1,
       (materialize kj.2 n).2.1 ++ (materializeFields kjs (materialize kj.2 n).2.2).2.1,
       (materializeFields kjs (materialize kj.2 n).2.2).2.2) := by
  rw [materializeFields]

theorem materialize_arr_eq (elems : List Json) (n : Nat) :
    materialize (Json.arr elems) n =
      (JSVal.ref (materializeElems elems n).2.2,
       (materializeElems elems n).2.1 ++
         [((materializeElems elems n).2.2, JSNode.arr (materializeElems elems n).1)],
       (materializeElems elems n).2.2 + 1) := by
  rw [materialize]

theorem materialize_obj_eq (fields : List (String × Json)) (n : Nat) :
    materialize (Json.obj fields) n =
      (JSVal.ref (materializeFields fields n).2.2,
       (materializeFields fields n).2.1 ++
         [((materializeFields fields n).2.2, JSNode.obj (materializeFields fields n).1)],
       (materializeFields fields n).2.2 + 1) := by
  rw [materialize]

theorem materialize_depth (j : Json) :
    ∀ n, jsonDepth j ≤ (materialize j n).2.1.length := by
  cases j with
  | null => intro n; rw [materialize]; simp [jsonDepth]
  | bool b => intro n; rw [materialize]; simp [jsonDepth]
  | num i => intro n; rw [materialize]; simp [jsonDepth]
  | str s => intro n; rw [materialize]; simp [jsonDepth]
  | arr elems =>
    intro n
    rw [materialize]
    simp only [jsonDepth, List.length_append, List.length_cons, List.length_nil]
    have := materializeElems_depth elems (fun j' _ => materialize_depth j') n
    omega
  | obj fields =>
    intro n
    rw [materialize]
    simp only [jsonDepth, List.length_append, List.length_cons, List.length_nil]
    have := materializeFields_depth fields (fun kj _ => materialize_depth kj.2) n
    omega
termination_by sizeOf j
decreasing_by
  all_goals simp_wf
  · have := List.sizeOf_lt_of_mem (by assumption : j' ∈ elems)
    omega
  · have := List.sizeOf_lt_of_mem (by assumption : kj ∈ fields)
    cases kj
    simp at this ⊢
    omega

theorem materializeElems_roundtrip (elems : List Json)
    (IH : ∀ j ∈ elems, RoundTripOk j) :
    ∀ n (H : JSHeap) fuel anc,
      (∀ p ∈ (materializeElems elems n).2.1, List.lookup p.1 H = some p.2) →
      (∀ b ∈ anc, (materializeElems elems n).2.2 ≤ b) →
      jsonDepth.jsonDepthElems elems < fuel →
      exceptMapElems (fun v => stringifyVal H fuel anc v) (materializeElems elems n).1 =
        Except.ok elems := by
  induction elems with
  | nil =>
    intro n H fuel anc hlk hanc hd
    rw [materializeElems_nil_eq]
    rfl
  | cons j js ih =>
    intro n H fuel anc hlk hanc hd
    rw [materializeElems_cons_eq] at hlk hanc ⊢
    simp only at hlk hanc ⊢
    simp only [jsonDepth.jsonDepthElems] at hd
    have hmono : (materialize j n).2.2 ≤ (materializeElems js (materialize j n).2.2).2.2 :=
      (materializeElems_bounds js (fun j' _ => materialize_bounds j') (materialize j n).2.2).1
    have h1 : stringifyVal H fuel anc (materialize j n).1 = Except.ok (some j) := by
      refine IH j (by simp) n H fuel anc ?_ ?_ ?_
      · intro p hp
        exact hlk p (List.mem_append.mpr (Or.inl hp))
      · intro b hb
        exact le_trans hmono (hanc b hb)
      · exact lt_of_le_of_lt (le_max_left _ _) hd
    have h2 : exceptMapElems (fun v => stringifyVal H fuel anc v)
        (materializeElems js (materialize j n).2.2).1 = Except.ok js := by
      refine ih (fun j' hj' => IH j' (by simp [hj'])) (materialize j n).2.2 H fuel anc ?_ ?_ ?_
      · intro p hp
        exact hlk p (List.mem_append.mpr (Or.inr hp))
      · exact hanc
      · exact lt_of_le_of_lt (le_max_right _ _) hd
    simp only [exceptMapElems, h1, h2, Option.getD_some]

theorem materializeFields_roundtrip (kjs : List (String × Json))
    (IH : ∀ kj ∈ kjs, RoundTripOk kj.2) :
    ∀ n (H : JSHeap) fuel anc,
      (∀ p ∈ (materializeFields kjs n).2.1, List.lookup p.1 H = some p.2) →
      (∀ b ∈ anc, (materializeFields kjs n).2.2 ≤ b) →
      jsonDepth.jsonDepthFields kjs < fuel →
      exceptMapFields (fun v => stringifyVal H fuel anc v) (materializeFields kjs n).1 =
        Except.ok kjs := by
  induction kjs with
  | nil =>
    intro n H fuel anc hlk hanc hd
    rw [materializeFields_nil_eq]
    rfl
  | cons kj kjs' ih =>
    intro n H fuel anc hlk hanc hd
    rw [materializeFields_cons_eq] at hlk hanc ⊢
    simp only at hlk hanc ⊢
    simp only [jsonDepth.jsonDepthFields] at hd
    have hmono : (materialize kj.2 n).2.2 ≤
        (materializeFields kjs' (materialize kj.2 n).2.2).2.2 :=
      (materializeFields_bounds kjs' (fun kj' _ => materialize_bounds kj'.2)
        (materialize kj.2 n).2.2).1
    have h1 : stringifyVal H fuel anc (materialize kj.2 n).1 = Except.ok (some kj.2) := by
      refine IH kj (by simp) n H fuel anc ?_ ?_ ?_
      · intro p hp
        exact hlk p (List.mem_append.mpr (Or.inl hp))
      · intro b hb
        exact le_trans hmono (hanc b hb)
      · exact lt_of_le_of_lt (le_max_left _ _) hd
    have h2 : exceptMapFields (fun v => stringifyVal H fuel anc v)
        (materializeFields kjs' (materialize kj.2 n).2.2).1 = Except.ok kjs' := by
      refine ih (fun kj' hkj' => IH kj' (by simp [hkj'])) (materialize kj.2 n).2.2 H fuel anc
        ?_ ?_ ?_
      · intro p hp
        exact hlk p (List.mem_append.mpr (Or.inr hp))
      · exact hanc
      · exact lt_of_le_of_lt (le_max_right _ _) hd
    simp only [exceptMapFields, h1, h2, Prod.mk.eta]

theorem materialize_roundtrip (j : Json) : RoundTripOk j := by
  cases j with
  | null =>
    intro n H fuel anc hlk hanc hd
    rw [materialize]
    rw [stringifyVal]
  | bool b =>
    intro n H fuel anc hlk hanc hd
    rw [materialize]
    cases fuel <;> rfl
  | num i =>
    intro n H fuel anc hlk hanc hd
    rw [materialize]
    cases fuel <;> rfl
  | str s =>
    intro n H fuel anc hlk hanc hd
    rw [materialize]
    cases fuel <;> rfl
  | arr elems =>
    intro n H fuel anc hlk hanc hd
    rw [materialize_arr_eq] at hlk hanc ⊢
    simp only at hlk hanc ⊢
    simp only [jsonDepth] at hd
    obtain ⟨f, rfl⟩ : ∃ f, fuel = f + 1 := ⟨fuel - 1, by omega⟩
    rw [stringifyVal]
    have hnotmem : (materializeElems elems n).2.2 ∉ anc := by
      intro hmem
      have := hanc _ hmem
      omega
    rw [if_neg hnotmem]
    have hlknode : List.lookup (materializeElems elems n).2.2 H =
        some (JSNode.arr (materializeElems elems n).1) :=
      hlk ((materializeElems elems n).2.2, JSNode.arr (materializeElems elems n).1)
        (List.mem_append.mpr (Or.inr (by simp)))
    rw [hlknode]
    have hrt := materializeElems_roundtrip elems (fun j' _ => materialize_roundtrip j')
      n H f ((materializeElems elems n).2.2 :: anc) ?_ ?_ ?_
    · show Except.map (fun l => some (Json.arr l))
          (exceptMapElems (fun v => stringifyVal H f ((materializeElems elems n).2.2 :: anc) v)
            (materializeElems elems n).1) = Except.ok (some (Json.arr elems))
      rw [hrt]
      rfl
    · intro p hp
      exact hlk p (List.mem_append.mpr (Or.inl hp))
    · intro b hb
      rcases List.mem_cons.mp hb with rfl | hmem
      · exact le_refl _
      · have := hanc b hmem
        omega
    · omega
  | obj fields =>
    intro n H fuel anc hlk hanc hd
    rw [materialize_obj_eq] at hlk hanc ⊢
    simp only at hlk hanc ⊢
    simp only [jsonDepth] at hd
    obtain ⟨f, rfl⟩ : ∃ f, fuel = f + 1 := ⟨fuel - 1, by omega⟩
    rw [stringifyVal]
    have hnotmem : (materializeFields fields n).2.2 ∉ anc := by
      intro hmem
      have := hanc _ hmem
      omega
    rw [if_neg hnotmem]
    have hlknode : List.lookup (materializeFields fields n).2.2 H =
        some (JSNode.obj (materializeFields fields n).1) :=
      hlk ((materializeFields fields n).2.2, JSNode.obj (materializeFields fields n).1)
        (List.mem_append.mpr (Or.inr (by simp)))
    rw [hlknode]
    have hrt := materializeFields_roundtrip fields (fun kj _ => materialize_roundtrip kj.2)
      n H f ((materializeFields fields n).2.2 :: anc) ?_ ?_ ?_
    · show Except.map (fun l => some (Json.obj l))
          (exceptMapFields (fun v => stringifyVal H f ((materializeFields fields n).2.2 :: anc) v)
            (materializeFields fields n).1) = Except.ok (some (Json.obj fields))
      rw [hrt]
      rfl
    · intro p hp
      exact hlk p (List.mem_append.mpr (Or.inl hp))
    · intro b hb
      rcases List.mem_cons.mp hb with rfl | hmem
      · exact le_refl _
      · have := hanc b hmem
        omega
    · omega
termination_by sizeOf j
decreasing_by
  all_goals simp_wf
  · have := List.sizeOf_lt_of_mem (by assumption : j' ∈ elems)
    omega
  · have := List.sizeOf_lt_of_mem (by assumption : kj ∈ fields)
    cases kj
    simp at this ⊢
    omega

theorem serializeJS_null (h : JSHeap) : serializeJS h JSVal.null = some Json.null := by
  unfold serializeJS
  rw [stringifyVal]

/-- C3: `stateExporter(null)` returns null; for every plain-data value `x`
(one whose `JSON.stringify` round trip succeeds, producing a document `j`),
`stateExporter(x)` returns a deep copy equal in value to `x` — it serializes
to the same document `j` — but not the same reference — when `x` is a
reference, the result is a freshly allocated reference distinct from it; and
for every `x` whose serialization fails (for example a self-referencing
structure), `stateExporter(x)` returns null without throwing. -/
theorem stateExporter_spec :
    (∀ h, MethodsInstance.stateExporter h JSVal.null = (JSVal.null, h)) ∧
    (∀ h x j, serializeJS h x = some j →
      serializeJS (MethodsInstance.stateExporter h x).2
        (MethodsInstance.stateExporter h x).1 = some j ∧
      (∀ a, x = JSVal.ref a → (MethodsInstance.stateExporter h x).1 ≠ x)) ∧
    (∀ h x, serializeJS h x = none → MethodsInstance.stateExporter h x = (JSVal.null, h)) := by
  refine ⟨fun h => rfl, ?_, ?_⟩
  · intro h x j hser
    by_cases hx : x = JSVal.null
    · subst hx
      have hj : Json.null = j := by
        rw [serializeJS_null h] at hser
        injection hser
      subst hj
      refine ⟨?_, ?_⟩
      · show serializeJS h JSVal.null = some Json.null
        exact serializeJS_null h
      · intro a ha
        cases ha
    · have hexp : MethodsInstance.stateExporter h x =
          ((materialize j (freshBase h)).1, h ++ (materialize j (freshBase h)).2.1) := by
        simp only [MethodsInstance.stateExporter, if_neg hx, hser]
      rw [hexp]
      obtain ⟨⟨hle, hin, hpw⟩, href⟩ := materialize_bounds j (freshBase h)
      have hnd : ((materialize j (freshBase h)).2.1.map Prod.fst).Nodup :=
        hpw.imp (fun hab => Nat.ne_of_lt hab)
      have hlkall : ∀ p ∈ (materialize j (freshBase h)).2.1,
          List.lookup p.1 (h ++ (materialize j (freshBase h)).2.1) = some p.2 := by
        intro p hp
        have hfresh : p.1 ∉ heapKeys h := by
          intro hmem
          have h1 : p.1 ≤ maxAddr h := le_maxAddr_of_mem hmem
          have h2 : freshBase h ≤ p.1 := (hin p hp).1
          have h3 : maxAddr h + 1 ≤ p.1 := h2
          exact absurd (Nat.lt_of_lt_of_le (Nat.lt_succ_of_le h1) h3) (Nat.lt_irrefl p.1)
        rw [lookup_append_of_not_mem hfresh]
        exact lookup_eq_some_of_mem_of_nodup hnd hp
      refine ⟨?_, ?_⟩
      · unfold serializeJS
        have hfuel : jsonDepth j <
            (h ++ (materialize j (freshBase h)).2.1).length + 1 := by
          have hd := materialize_depth j (freshBase h)
          rw [List.length_append]
          omega
        have hrt := materialize_roundtrip j (freshBase h)
          (h ++ (materialize j (freshBase h)).2.1)
          ((h ++ (materialize j (freshBase h)).2.1).length + 1) [] hlkall
          (fun b hb => absurd hb (List.not_mem_nil b)) hfuel
        rw [hrt]
      · intro a hxa
        subst hxa
        have hamem : a ∈ heapKeys h := by
          unfold serializeJS at hser
          rw [stringifyVal] at hser
          rw [if_neg (List.not_mem_nil a)] at hser
          rcases hlk2 : List.lookup a h with _ | node
          · rw [hlk2] at hser
            cases hser
          · exact mem_keys_of_lookup hlk2
        have hamax : a ≤ maxAddr h := le_maxAddr_of_mem hamem
        have hjshape : (∃ l, j = Json.arr l) ∨ (∃ l, j = Json.obj l) := by
          unfold serializeJS at hser
          rw [stringifyVal] at hser
          rw [if_neg (List.not_mem_nil a)] at hser
          rcases hlk2 : List.lookup a h with _ | node
          · rw [hlk2] at hser
            cases hser
          · cases node with
            | arr elems =>
              rcases hE : exceptMapElems
                  (fun v => stringifyVal h h.length (a :: []) v) elems with e | l
              · simp only [hlk2, hE, Except.map] at hser
                cases hser
              · simp only [hlk2, hE, Except.map, Option.some.injEq] at hser
                exact Or.inl ⟨l, hser.symm⟩
            | obj fields =>
              rcases hE : exceptMapFields
                  (fun v => stringifyVal h h.length (a :: []) v) fields with e | l
              · simp only [hlk2, hE, Except.map] at hser
                cases hser
              · simp only [hlk2, hE, Except.map, Option.some.injEq] at hser
                exact Or.inr ⟨l, hser.symm⟩
        rcases hjshape with ⟨l, rfl⟩ | ⟨l, rfl⟩
        · rw [materialize_arr_eq]
          simp only
          intro heq
          injection heq with heq'
          have hbound :=
            (materializeElems_bounds l (fun j' _ => materialize_bounds j') (freshBase h)).1
          have hfb : freshBase h = maxAddr h + 1 := rfl
          omega
        · rw [materialize_obj_eq]
          simp only
          intro heq
          injection heq with heq'
          have hbound :=
            (materializeFields_bounds l (fun kj _ => materialize_bounds kj.2) (freshBase h)).1
          have hfb : freshBase h = maxAddr h + 1 := rfl
          omega
  · intro h x hser
    by_cases hx : x = JSVal.null
    · subst hx
      rw [serializeJS_null h] at hser
      cases hser
    · simp only [MethodsInstance.stateExporter, if_neg hx, hser]

/-- Witness for C3 at concrete inputs: a one-field object round-trips to the
same document while the exported root is a fresh reference, and a
self-referencing object serializes to nothing and exports as null. -/
theorem stateExporter_spec_witness :
    serializeJS [(0, JSNode.obj [("k", JSVal.str "v")])] (JSVal.ref 0) =
      some (Json.obj [("k", Json.str "v")]) ∧
    (MethodsInstance.stateExporter [(0, JSNode.obj [("k", JSVal.str "v")])]
      (JSVal.ref 0)).1 ≠ JSVal.ref 0 ∧
    serializeJS [(0, JSNode.obj [("self", JSVal.ref 0)])] (JSVal.ref 0) = none ∧
    MethodsInstance.stateExporter [(0, JSNode.obj [("self", JSVal.ref 0)])] (JSVal.ref 0) =
      (JSVal.null, [(0, JSNode.obj [("self", JSVal.ref 0)])]) := by
  refine ⟨rfl, ?_, rfl, ?_⟩
  · exact (stateExporter_spec.2.1 [(0, JSNode.obj [("k", JSVal.str "v")])] (JSVal.ref 0)
      (Json.obj [("k", Json.str "v")]) rfl).2 0 rfl
  · exact stateExporter_spec.2.2 [(0, JSNode.obj [("self", JSVal.ref 0)])] (JSVal.ref 0) rfl

/-- C10: `stateExporter(undefined)` returns null without throwing:
`undefined !== null`, so serialization is attempted; the round trip
`JSON.parse(JSON.stringify(undefined))` produces no document (the parse
throws), and the caught failure leaves the null result. -/
theorem stateExporter_undef (h : JSHeap) :
    serializeJS h JSVal.undef = none ∧
    MethodsInstance.stateExporter h JSVal.undef = (JSVal.null, h) := by
  have hs : serializeJS h JSVal.undef = none := by
    unfold serializeJS
    rw [stringifyVal]
  refine ⟨hs, ?_⟩
  simp only [MethodsInstance.stateExporter, hs]
  rw [if_neg (by decide : ¬ (JSVal.undef = JSVal.null))]

end Hyperglass
